import Mathlib

/-!
Verification model of the Kademlia routing table of `libs/muddle` (header
`src/libs/muddle/internal/kademlia/table.hpp`).  The table's data members and
the persistence codec (`serializers::MapSerializer<muddle::KademliaTable, D>`)
are embedded from that header.  Method bodies (`table.cpp`), the bucket type
(`kademlia/bucket.hpp`) and the address primitives (`kademlia/primitives.hpp`)
are not part of the extracted sources; where a definition depends on them it is
modelled from the specification document, as indicated in its doc comment.

Machine integers are modelled as `Nat`; addresses, Kademlia addresses and URIs
are opaque values modelled as `Nat`.  The `std::unordered_map` /
`std::unordered_set` members are modelled as association lists / lists whose
element order stands for the container's iteration order: the C++ containers
enumerate their entries in some definite order that is part of the concrete
container state but is not determined by the abstract key set.
-/

set_option maxRecDepth 4000

namespace Muddle

/-- Number of id bits of a Kademlia address.  The header fixes
`KADEMLIA_MAX_ID_BITS = KademliaAddress::KADEMLIA_MAX_ID_BITS`; the constant's
value (160, SHA-1) is taken from the spec since `kademlia/primitives.hpp` is
not among the extracted sources. -/
def KADEMLIA_MAX_ID_BITS : Nat := 160

/-- Modelled from the spec: PeerInfo record of section 3 (the concrete
`PeerInfo` of `kademlia/primitives.hpp` is not among the extracted sources).
Addresses, Kademlia addresses and URIs are opaque and modelled as `Nat`. -/
structure PeerInfo where
  address : Nat
  kademlia_address : Nat
  uri : Nat
  last_reporter : Nat
  verified : Bool
  liveness : Nat
  last_seen : Nat
  trust_rank : Nat
deriving DecidableEq, Repr

/-- Fuel-driven floor of the base-2 logarithm (structural recursion so that the
kernel can evaluate it). -/
def log2Fuel : Nat → Nat → Nat
  | 0, _ => 0
  | fuel + 1, n => if n ≤ 1 then 0 else log2Fuel fuel (n / 2) + 1

/-- Position of the highest set bit of `n` (0 for `n = 0`). -/
def highBit (n : Nat) : Nat := log2Fuel n n

/-- Fuel-driven population count (structural recursion so that the kernel can
evaluate it). -/
def popFuel : Nat → Nat → Nat
  | 0, _ => 0
  | fuel + 1, n => if n = 0 then 0 else n % 2 + popFuel fuel (n / 2)

/-- Number of set bits of `n`. -/
def popCount (n : Nat) : Nat := popFuel n n

/-- Modelled from the spec: `log_id(a,b)` is the position of the highest set
bit of `a XOR b`, and `KADEMLIA_MAX_ID_BITS` when `a = b` (section 3; the
implementation in `kademlia/primitives.hpp` is not among the extracted
sources). -/
def logId (a b : Nat) : Nat :=
  if a = b then KADEMLIA_MAX_ID_BITS else highBit (a ^^^ b)

/-- Modelled from the spec: `hamming_id(a,b) = popcount(a XOR b)` (section 3;
the implementation in `kademlia/primitives.hpp` is not among the extracted
sources). -/
def hammingId (a b : Nat) : Nat := popCount (a ^^^ b)

/-- State of a `KademliaTable`, embedded from the data members declared in
`table.hpp` lines 126-151.  A bucket is a list of peers (freshest first); the
two bucket arrays have `KADEMLIA_MAX_ID_BITS + 1` entries.  The unordered maps
`know_peers_` / `known_uris_` / `connection_expiry_` / `desired_uri_expiry_`
are association lists and the unordered sets `desired_peers_` /
`desired_uris_` are lists, in container iteration order.  The shared
`PeerInfo` objects of the C++ code are modelled by keeping the copies held by
the four collections synchronised on every mutation. -/
structure TableState where
  own_address : Nat
  own_kad_address : Nat
  by_logarithm : List (List PeerInfo)
  by_hamming : List (List PeerInfo)
  know_peers : List (Nat × PeerInfo)
  known_uris : List (Nat × PeerInfo)
  first_non_empty_bucket : Nat
  kademlia_max_peers_per_bucket : Nat
  connection_expiry : List (Nat × Nat)
  desired_uri_expiry : List (Nat × Nat)
  desired_peers : List Nat
  desired_uris : List Nat
deriving DecidableEq, Repr

/-- Lookup in an association list of peers (`find` on an unordered map). -/
def lookupA (l : List (Nat × PeerInfo)) (a : Nat) : Option PeerInfo :=
  (l.find? (fun kv => kv.1 == a)).map (fun kv => kv.2)

/-- Lookup in an association list of timestamps. -/
def lookupT (l : List (Nat × Nat)) (a : Nat) : Option Nat :=
  (l.find? (fun kv => kv.1 == a)).map (fun kv => kv.2)

/-- Bucket at index `i` of a bucket array (empty for an out-of-range index). -/
def bucketAt (bks : List (List PeerInfo)) (i : Nat) : List PeerInfo :=
  bks.getD i []

/-- Freshly constructed table: empty buckets and indexes,
`first_non_empty_bucket_{KADEMLIA_MAX_ID_BITS}` and
`kademlia_max_peers_per_bucket_{20}` as in `table.hpp` lines 135-136. -/
def freshTable (own ownKad : Nat) : TableState where
  own_address := own
  own_kad_address := ownKad
  by_logarithm := List.replicate (KADEMLIA_MAX_ID_BITS + 1) []
  by_hamming := List.replicate (KADEMLIA_MAX_ID_BITS + 1) []
  know_peers := []
  known_uris := []
  first_non_empty_bucket := KADEMLIA_MAX_ID_BITS
  kademlia_max_peers_per_bucket := 20
  connection_expiry := []
  desired_uri_expiry := []
  desired_peers := []
  desired_uris := []

/-- Value carried by one key of the persisted tagged map. -/
inductive FieldVal where
  | fBuckets (bs : List (List PeerInfo))
  | fPeerMap (m : List (Nat × PeerInfo))
  | fExpiryMap (m : List (Nat × Nat))
  | fAddrSet (s : List Nat)
deriving DecidableEq, Repr

/-- Persistence encoder, embedded from
`serializers::MapSerializer<muddle::KademliaTable, D>::Serialize`
(`table.hpp` lines 177-190): a tagged map of eight fields appended with ids
`BY_LOGARITHM = 1` through `DESIRED_URIS = 8`, each field serialized in the
iteration order of the underlying container. -/
def serializeTable (t : TableState) : List (Nat × FieldVal) :=
  [(1, FieldVal.fBuckets t.by_logarithm),
   (2, FieldVal.fBuckets t.by_hamming),
   (3, FieldVal.fPeerMap t.know_peers),
   (4, FieldVal.fPeerMap t.known_uris),
   (5, FieldVal.fExpiryMap t.connection_expiry),
   (6, FieldVal.fExpiryMap t.desired_uri_expiry),
   (7, FieldVal.fAddrSet t.desired_peers),
   (8, FieldVal.fAddrSet t.desired_uris)]

/-- Persistence decoder, embedded from
`serializers::MapSerializer<muddle::KademliaTable, D>::Deserialize`
(`table.hpp` lines 192-203): `ExpectKeyGetValue` reads the eight keys in order
and stores each value verbatim into the corresponding member of the existing
table `t`; any key or payload mismatch is a decode error (`none`). -/
def deserializeTable (blob : List (Nat × FieldVal)) (t : TableState) :
    Option TableState :=
  match blob with
  | [(1, FieldVal.fBuckets bl), (2, FieldVal.fBuckets bh),
     (3, FieldVal.fPeerMap kp), (4, FieldVal.fPeerMap ku),
     (5, FieldVal.fExpiryMap ce), (6, FieldVal.fExpiryMap de),
     (7, FieldVal.fAddrSet dp), (8, FieldVal.fAddrSet du)] =>
    some { t with
      by_logarithm := bl
      by_hamming := bh
      know_peers := kp
      known_uris := ku
      connection_expiry := ce
      desired_uri_expiry := de
      desired_peers := dp
      desired_uris := du }
  | _ => none

/-- Result of loading the persisted fields of `t` into the table `t0`: the
eight serialized members are replaced, everything else (own addresses, cached
first non-empty bucket, bucket capacity) keeps the values of `t0`. -/
def loadInto (t0 t : TableState) : TableState :=
  { t0 with
    by_logarithm := t.by_logarithm
    by_hamming := t.by_hamming
    know_peers := t.know_peers
    known_uris := t.known_uris
    connection_expiry := t.connection_expiry
    desired_uri_expiry := t.desired_uri_expiry
    desired_peers := t.desired_peers
    desired_uris := t.desired_uris }

/-- Pointwise update of every copy of the peer with address `a` (the C++ code
mutates one shared `PeerInfo` object referenced from all four collections). -/
def gUpdate (a : Nat) (f : PeerInfo → PeerInfo) (p : PeerInfo) : PeerInfo :=
  if p.address = a then f p else p

/-- Modelled from the spec: mutation of the shared `PeerInfo` with address `a`,
applied to the copy held by each of the four collections (section 9, shared
mutable peer records; `table.cpp` is not among the extracted sources). -/
def updatePeer (t : TableState) (a : Nat) (f : PeerInfo → PeerInfo) :
    TableState :=
  { t with
    know_peers := t.know_peers.map (fun kv => (kv.1, gUpdate a f kv.2))
    known_uris := t.known_uris.map (fun kv => (kv.1, gUpdate a f kv.2))
    by_logarithm := t.by_logarithm.map (fun b => b.map (gUpdate a f))
    by_hamming := t.by_hamming.map (fun b => b.map (gUpdate a f)) }

/-- First index `j ≥ i` whose logarithmic bucket is non-empty, or
`KADEMLIA_MAX_ID_BITS` when every bucket from `i` on is empty (forward scan of
the cached first-non-empty index, spec section 4.3 ReportFailure). -/
def findFrom (bks : List (List PeerInfo)) (i : Nat) : Nat :=
  match (List.range' i (KADEMLIA_MAX_ID_BITS + 1 - i)).find?
      (fun j => !(bucketAt bks j).isEmpty) with
  | some j => j
  | none => KADEMLIA_MAX_ID_BITS

/-- Modelled from the spec: removal of a peer from both buckets and both
indexes, advancing the cached first-non-empty index forward (sections 3
lifecycle and 4.3 ReportFailure; `table.cpp` is not among the extracted
sources). -/
def removePeer (t : TableState) (a : Nat) : TableState :=
  let bl := t.by_logarithm.map (fun b => b.filter (fun p => p.address != a))
  let bh := t.by_hamming.map (fun b => b.filter (fun p => p.address != a))
  { t with
    by_logarithm := bl
    by_hamming := bh
    know_peers := t.know_peers.filter (fun kv => kv.1 != a)
    known_uris := t.known_uris.filter (fun kv => kv.2.address != a)
    first_non_empty_bucket := findFrom bl t.first_non_empty_bucket }

/-- Modelled from the spec: candidate-versus-tail comparison of the bucket
insertion policy — the candidate wins on strictly higher liveness, ties broken
by a newer `last_seen` (section 4.2; `kademlia/bucket.hpp` is not among the
extracted sources).  An empty bucket always accepts. -/
def beatsTail (info : PeerInfo) (b : List PeerInfo) : Bool :=
  match b.getLast? with
  | none => true
  | some tl =>
    tl.liveness < info.liveness
      || (tl.liveness == info.liveness && tl.last_seen < info.last_seen)

/-- Modelled from the spec: a bucket accepts a candidate when it is not full
or when the candidate beats the current tail (section 4.2). -/
def canInsert (K : Nat) (info : PeerInfo) (b : List PeerInfo) : Bool :=
  b.length < K || beatsTail info b

/-- Modelled from the spec: merge step of ReportExistence for an already-known
peer — prefer the incoming URI only if the existing record is unverified,
always record the reporter; liveness is not touched (section 4.3). -/
def mergeInfo (info : PeerInfo) (reporter : Nat) (p : PeerInfo) : PeerInfo :=
  { p with
    uri := if p.verified then p.uri else info.uri
    last_reporter := reporter }

/-- Modelled from the spec: when the given bucket is full, evict (destroy) its
tail peer — the lowest-liveness, oldest entry — from the whole table; a
not-full bucket leaves the table unchanged (sections 3 lifecycle and 4.2). -/
def evictFor (t : TableState) (b : List PeerInfo) : TableState :=
  if b.length < t.kademlia_max_peers_per_bucket then t
  else
    match b.getLast? with
    | some tl => removePeer t tl.address
    | none => t

/-- Registration step of ReportExistence: cons the new record onto the two
target buckets, append it to `know_peers_` and `known_uris_`, and lower the
cached first-non-empty index (section 4.3). -/
def registerNew (t : TableState) (info : PeerInfo) (reporter li hi : Nat) :
    TableState :=
  { t with
    by_logarithm := t.by_logarithm.set li
      ({ info with last_reporter := reporter } :: bucketAt t.by_logarithm li)
    by_hamming := t.by_hamming.set hi
      ({ info with last_reporter := reporter } :: bucketAt t.by_hamming hi)
    know_peers :=
      t.know_peers ++ [(info.address, { info with last_reporter := reporter })]
    known_uris :=
      (t.known_uris.filter (fun kv => kv.1 != info.uri)) ++
        [(info.uri, { info with last_reporter := reporter })]
    first_non_empty_bucket := min t.first_non_empty_bucket li }

/-- Insertion path of ReportExistence for an accepted unknown peer: evict the
tails of the two full target buckets, then register the new record in both
bucket arrays and both indexes (section 4.3). -/
def insertNew (t : TableState) (info : PeerInfo) (reporter : Nat) : TableState :=
  let li := logId t.own_kad_address info.kademlia_address
  let hi := hammingId t.own_kad_address info.kademlia_address
  let t1 := evictFor t (bucketAt t.by_logarithm li)
  let t2 := evictFor t1 (bucketAt t1.by_hamming hi)
  registerNew t2 info reporter li hi

/-- Modelled from the spec: `ReportExistence(info, reporter)` (section 4.3;
`table.cpp` is not among the extracted sources).  Reports about the own
address are ignored; a known peer is merged in place; an unknown peer is
inserted into both bucket arrays at its `log_id` / `hamming_id` indices when
both buckets accept it, evicting the tail of a full bucket (an evicted peer is
destroyed, i.e. removed from both indexes and both arrays), and is registered
in `know_peers_` and `known_uris_`, lowering the cached first-non-empty
index; a declined candidate is silently dropped. -/
def reportExistence (t : TableState) (info : PeerInfo) (reporter : Nat) :
    TableState :=
  if info.address = t.own_address then t
  else
    match lookupA t.know_peers info.address with
    | some _ => updatePeer t info.address (mergeInfo info reporter)
    | none =>
      if canInsert t.kademlia_max_peers_per_bucket info
            (bucketAt t.by_logarithm (logId t.own_kad_address info.kademlia_address))
          && canInsert t.kademlia_max_peers_per_bucket info
            (bucketAt t.by_hamming (hammingId t.own_kad_address info.kademlia_address))
      then insertNew t info reporter
      else t

/-- Modelled from the spec: liveness bump — increment clamped to the configured
maximum, refresh `last_seen` (section 4.3 ReportLiveliness). -/
def bumpPeer (lmax now : Nat) (p : PeerInfo) : PeerInfo :=
  { p with liveness := min (p.liveness + 1) lmax, last_seen := now }

/-- Move every copy of peer `a` to the front of the bucket containing it,
applying `f` to it (section 4.3 ReportLiveliness). -/
def moveFront (a : Nat) (f : PeerInfo → PeerInfo)
    (bks : List (List PeerInfo)) : List (List PeerInfo) :=
  bks.map (fun b =>
    match b.find? (fun p => p.address == a) with
    | some p => f p :: b.filter (fun q => q.address != a)
    | none => b)

/-- Modelled from the spec: the in-place part of ReportLiveliness for a known
peer — bump liveness in both indexes and move the peer to the front of both
buckets (section 4.3); a no-op for an unknown address. -/
def bumpState (lmax now : Nat) (t : TableState) (a : Nat) : TableState :=
  match lookupA t.know_peers a with
  | some _ =>
    { t with
      know_peers := t.know_peers.map (fun kv => (kv.1, gUpdate a (bumpPeer lmax now) kv.2))
      known_uris := t.known_uris.map (fun kv => (kv.1, gUpdate a (bumpPeer lmax now) kv.2))
      by_logarithm := moveFront a (bumpPeer lmax now) t.by_logarithm
      by_hamming := moveFront a (bumpPeer lmax now) t.by_hamming }
  | none => t

/-- Modelled from the spec: `ReportLiveliness(address, reporter, info)`
(section 4.3; `table.cpp` is not among the extracted sources).  An unknown
address with a companion `info` delegates to ReportExistence first; an unknown
address without one is a no-op. -/
def reportLiveliness (lmax now : Nat) (t : TableState) (a r : Nat)
    (minfo : Option PeerInfo) : TableState :=
  match lookupA t.know_peers a with
  | some _ => bumpState lmax now t a
  | none =>
    match minfo with
    | some i => bumpState lmax now (reportExistence t i r) a
    | none => t

/-- Modelled from the spec: `ReportFailure(address, reporter)` (sections 4.3
and 4.5; `table.cpp` is not among the extracted sources).  Unknown address: a
no-op.  Otherwise decrement liveness; when it drops to zero remove the peer
from both buckets and both indexes, advancing the cached first-non-empty
index. -/
def reportFailure (t : TableState) (a : Nat) (r : Nat) : TableState :=
  match lookupA t.know_peers a with
  | none => t
  | some p =>
    if p.liveness ≤ 1 then removePeer t a
    else updatePeer t a (fun q => { q with liveness := q.liveness - 1 })

/-- Modelled from the spec: the table-state effect of `Ping` — promote the
`verified` flag of a known, directly contacted peer (section 4.3; URI/port
resolution is external I/O and out of the table model; `table.cpp` is not
among the extracted sources). -/
def ping (t : TableState) (a : Nat) : TableState :=
  if (lookupA t.know_peers a).isSome then
    updatePeer t a (fun p => { p with verified := true })
  else t

/-- Modelled from the spec: `AddDesiredPeer(address, expiry)` (section 4.4). -/
def addDesiredAddr (t : TableState) (a expiry : Nat) : TableState :=
  { t with
    desired_peers :=
      if t.desired_peers.contains a then t.desired_peers
      else t.desired_peers ++ [a]
    connection_expiry :=
      (t.connection_expiry.filter (fun kv => kv.1 != a)) ++ [(a, expiry)] }

/-- Modelled from the spec: `AddDesiredPeer(uri, expiry)` (section 4.4). -/
def addDesiredUri (t : TableState) (u expiry : Nat) : TableState :=
  { t with
    desired_uris :=
      if t.desired_uris.contains u then t.desired_uris
      else t.desired_uris ++ [u]
    desired_uri_expiry :=
      (t.desired_uri_expiry.filter (fun kv => kv.1 != u)) ++ [(u, expiry)] }

/-- Modelled from the spec: `RemoveDesiredPeer(address)` (section 4.4). -/
def removeDesiredPeer (t : TableState) (a : Nat) : TableState :=
  { t with
    desired_peers := t.desired_peers.filter (fun x => x != a)
    connection_expiry := t.connection_expiry.filter (fun kv => kv.1 != a) }

/-- Modelled from the spec: `ClearDesired()` (section 4.4). -/
def clearDesired (t : TableState) : TableState :=
  { t with
    desired_peers := []
    desired_uris := []
    connection_expiry := []
    desired_uri_expiry := [] }

/-- Modelled from the spec: `TrimDesiredPeers()` — drop desired entries whose
expiry deadline lies in the past (section 4.4). -/
def trimDesiredPeers (t : TableState) (now : Nat) : TableState :=
  { t with
    desired_peers := t.desired_peers.filter (fun a =>
      match lookupT t.connection_expiry a with
      | some e => now.ble e
      | none => true)
    connection_expiry := t.connection_expiry.filter (fun kv => now.ble kv.2)
    desired_uris := t.desired_uris.filter (fun u =>
      match lookupT t.desired_uri_expiry u with
      | some e => now.ble e
      | none => true)
    desired_uri_expiry := t.desired_uri_expiry.filter (fun kv => now.ble kv.2) }

/-- Modelled from the spec: `ConvertDesiredUrisToAddresses()` — promote desired
URI entries whose peer address is now known (section 4.4). -/
def convertDesiredUris (t : TableState) : TableState :=
  let found := (t.desired_uris.filterMap (fun u => lookupA t.known_uris u)).map
    (fun p => p.address)
  { t with
    desired_uris := t.desired_uris.filter
      (fun u => !(lookupA t.known_uris u).isSome)
    desired_peers :=
      t.desired_peers ++ found.filter (fun a => !t.desired_peers.contains a) }

/-- One public mutating operation of the table (spec section 4.3/4.4).
`opLiveliness` carries the clock reading used for `last_seen`. -/
inductive TableOp where
  | opExistence (info : PeerInfo) (reporter : Nat)
  | opLiveliness (now a r : Nat) (minfo : Option PeerInfo)
  | opFailure (a r : Nat)
  | opPing (a : Nat)
  | opAddDesired (a expiry : Nat)
  | opAddDesiredUri (u expiry : Nat)
  | opRemoveDesired (a : Nat)
  | opClearDesired
  | opTrimDesired (now : Nat)
  | opConvertDesiredUris
deriving DecidableEq, Repr

/-- Interpreter of one public operation; `lmax` is the configured liveness
maximum. -/
def applyOp (lmax : Nat) (t : TableState) : TableOp → TableState
  | .opExistence info r => reportExistence t info r
  | .opLiveliness now a r minfo => reportLiveliness lmax now t a r minfo
  | .opFailure a r => reportFailure t a r
  | .opPing a => ping t a
  | .opAddDesired a e => addDesiredAddr t a e
  | .opAddDesiredUri u e => addDesiredUri t u e
  | .opRemoveDesired a => removeDesiredPeer t a
  | .opClearDesired => clearDesired t
  | .opTrimDesired now => trimDesiredPeers t now
  | .opConvertDesiredUris => convertDesiredUris t

/-- Run of a sequence of public operations from a starting state. -/
def runOps (lmax : Nat) (t : TableState) (ops : List TableOp) : TableState :=
  ops.foldl (applyOp lmax) t

/-- Alternating interleave of two index lists (one step left, one step right,
spec section 4.3 FindPeer step 3). -/
def mergeAlt : List Nat → List Nat → List Nat
  | [], ys => ys
  | x :: xs, [] => x :: xs
  | x :: xs, y :: ys => x :: y :: mergeAlt xs ys

/-- Bucket scan order of FindPeer: the start bucket, then buckets to the left
and to the right interleaved one step at a time (spec section 4.3). -/
def scanOrder (i : Nat) : List Nat :=
  i :: mergeAlt (List.range i).reverse (List.range' (i + 1) (KADEMLIA_MAX_ID_BITS - i))

/-- Collect bucket contents along the scan order until at least `K` peers have
been gathered (spec section 4.3 FindPeer step 4). -/
def collectGo (K : Nat) (bks : List (List PeerInfo)) :
    List Nat → List PeerInfo → List PeerInfo
  | [], acc => acc
  | i :: rest, acc =>
    if K ≤ acc.length then acc else collectGo K bks rest (acc ++ bucketAt bks i)

/-- Peers collected from the buckets along the scan order. -/
def collectUpTo (K : Nat) (bks : List (List PeerInfo)) (idxs : List Nat) :
    List PeerInfo :=
  collectGo K bks idxs []

/-- XOR distance from a target Kademlia address to a peer. -/
def distTo (kam : Nat) (p : PeerInfo) : Nat := kam ^^^ p.kademlia_address

/-- Comparison of two peers by XOR distance to the target. -/
def peerNear (kam : Nat) (p q : PeerInfo) : Prop := distTo kam p ≤ distTo kam q

instance (kam : Nat) : DecidableRel (peerNear kam) :=
  fun p q => Nat.decLe (distTo kam p) (distTo kam q)

instance (kam : Nat) : IsTotal PeerInfo (peerNear kam) :=
  ⟨fun p q => Nat.le_total (distTo kam p) (distTo kam q)⟩

instance (kam : Nat) : IsTrans PeerInfo (peerNear kam) :=
  ⟨fun _ _ _ h h2 => Nat.le_trans h h2⟩

/-- Modelled from the spec: core of `FindPeer` (section 4.3; `table.cpp` is
not among the extracted sources).  Collect peers from the logarithmic buckets
along the scan order until K peers are gathered, sort them ascending by exact
XOR distance to the target, truncate to K and exclude the own address. -/
def findPeerInternal (t : TableState) (kam : Nat) (log_id : Nat) :
    List PeerInfo :=
  ((List.insertionSort (peerNear kam)
      (collectUpTo t.kademlia_max_peers_per_bucket t.by_logarithm
        (scanOrder log_id))).take
    t.kademlia_max_peers_per_bucket).filter
    (fun p => p.address != t.own_address)

/-- Modelled from the spec: `FindPeer(target)` — hash the target and search
from bucket `log_id(own_kad, hash(target))` scanning in both directions
(section 4.3).  The address hasher is the external AddressHasher collaborator,
passed as a function. -/
def findPeer (t : TableState) (hasher : Nat → Nat) (target : Nat) :
    List PeerInfo :=
  findPeerInternal t (hasher target) (logId t.own_kad_address (hasher target))

/-- Highest-liveness peer of a bucket (`none` for an empty bucket). -/
def maxLive (b : List PeerInfo) : Option PeerInfo :=
  b.foldl (fun acc p =>
    match acc with
    | none => some p
    | some q => if q.liveness < p.liveness then some p else some q) none

/-- Modelled from the spec: `ProposePermanentConnections()` — every desired
peer that is currently known, in the desired set's order, followed by one
highest-liveness peer per non-empty logarithmic bucket from bucket 0 upward
(section 4.3; `table.cpp` is not among the extracted sources). -/
def proposePermanentConnections (t : TableState) : List PeerInfo :=
  (t.desired_peers.filterMap (fun a => lookupA t.know_peers a)) ++
    ((List.range (KADEMLIA_MAX_ID_BITS + 1)).filterMap
      (fun i => maxLive (bucketAt t.by_logarithm i)))

/-- Addresses stored in the logarithmic bucket array, bucket by bucket. -/
def logAddresses (t : TableState) : List (List Nat) :=
  t.by_logarithm.map (fun b => b.map PeerInfo.address)

/-- Well-formedness used by the FindPeer theorems: no address occurs twice
across the logarithmic bucket array (each peer lives in exactly one bucket and
buckets hold no duplicates — invariant 1 of spec section 8). -/
def bucketsWf (t : TableState) : Prop := (logAddresses t).flatten.Nodup

instance (t : TableState) : Decidable (bucketsWf t) :=
  inferInstanceAs (Decidable (List.Nodup _))

/-- Coherence of the shared-peer representation: `know_peers_` keys equal the
address of the record they hold, and every peer copy reachable from
`known_uris_` or either bucket array is registered in `know_peers_`
(invariant 1 of spec section 8: all four collections reference the same
records). -/
def coherent (t : TableState) : Prop :=
  (∀ kv ∈ t.know_peers, (kv.2).address = kv.1) ∧
  (∀ kv ∈ t.known_uris, (lookupA t.know_peers (kv.2).address).isSome = true) ∧
  (∀ b ∈ t.by_logarithm, ∀ p ∈ b, (lookupA t.know_peers p.address).isSome = true) ∧
  (∀ b ∈ t.by_hamming, ∀ p ∈ b, (lookupA t.know_peers p.address).isSome = true)

instance (t : TableState) : Decidable (coherent t) := by
  unfold coherent; infer_instance

/-- Bucket-capacity invariant of claim C6: the configured capacity is the
default 20 and no bucket of either array holds more than 20 peers. -/
def bucketsBounded (t : TableState) : Prop :=
  t.kademlia_max_peers_per_bucket = 20 ∧
  (∀ b ∈ t.by_logarithm, b.length ≤ 20) ∧
  (∀ b ∈ t.by_hamming, b.length ≤ 20)

/-- Absence of address `a` from all four collections of the table. -/
def peerAbsent (t : TableState) (a : Nat) : Prop :=
  lookupA t.know_peers a = none ∧
  (∀ kv ∈ t.known_uris, (kv.2).address ≠ a) ∧
  (∀ b ∈ t.by_logarithm, ∀ p ∈ b, p.address ≠ a) ∧
  (∀ b ∈ t.by_hamming, ∀ p ∈ b, p.address ≠ a)

/-- Absence of address `a` from every peer copy and every key of the table
(used by the idempotence proof of ReportExistence). -/
def addrFree (t : TableState) (a : Nat) : Prop :=
  (∀ kv ∈ t.know_peers, kv.1 ≠ a) ∧
  (∀ kv ∈ t.know_peers, (kv.2).address ≠ a) ∧
  (∀ kv ∈ t.known_uris, (kv.2).address ≠ a) ∧
  (∀ b ∈ t.by_logarithm, ∀ p ∈ b, p.address ≠ a) ∧
  (∀ b ∈ t.by_hamming, ∀ p ∈ b, p.address ≠ a)

/-- Empty bucket array (161 empty buckets). -/
def emptyBuckets : List (List PeerInfo) :=
  List.replicate (KADEMLIA_MAX_ID_BITS + 1) []

/-- Concrete peer used by the example tables: address 1, Kademlia address 6,
URI 30, liveness 3. -/
def pW : PeerInfo :=
  { address := 1, kademlia_address := 6, uri := 30, last_reporter := 0,
    verified := false, liveness := 3, last_seen := 0, trust_rank := 0 }

/-- Concrete table holding `pW`: own address 5, own Kademlia address 9; `pW`
sits in logarithmic bucket `logId 9 6 = 3` and Hamming bucket
`hammingId 9 6 = 4`. -/
def tW : TableState :=
  { freshTable 5 9 with
    by_logarithm := emptyBuckets.set 3 [pW]
    by_hamming := emptyBuckets.set 4 [pW]
    know_peers := [(1, pW)]
    known_uris := [(30, pW)] }

/-- The table `tW` with `pW` also registered as a desired peer. -/
def tW9 : TableState :=
  { tW with desired_peers := [1], connection_expiry := [(1, 100)] }

/-- Fresh candidate peer reported to the example tables. -/
def pNew : PeerInfo :=
  { address := 2, kademlia_address := 12, uri := 40, last_reporter := 9,
    verified := false, liveness := 1, last_seen := 4, trust_rank := 0 }

/-- Peer record of the corrupted persistence blob: its Kademlia address 1 has
`logId 0 1 = 0` against the loading table's own Kademlia address 0, yet the
blob stores it in logarithmic bucket 5. -/
def pBad : PeerInfo :=
  { address := 7, kademlia_address := 1, uri := 30, last_reporter := 0,
    verified := false, liveness := 1, last_seen := 0, trust_rank := 0 }

/-- Persisted blob whose bucket arrays place `pBad` at logarithmic index 5 and
Hamming index 2, both of which disagree with the indices recomputed from the
loading table's own Kademlia address 0 (`logId 0 1 = 0`, `hammingId 0 1 = 1`). -/
def blobBad : List (Nat × FieldVal) :=
  [(1, FieldVal.fBuckets (emptyBuckets.set 5 [pBad])),
   (2, FieldVal.fBuckets (emptyBuckets.set 2 [pBad])),
   (3, FieldVal.fPeerMap [(7, pBad)]),
   (4, FieldVal.fPeerMap [(30, pBad)]),
   (5, FieldVal.fExpiryMap []),
   (6, FieldVal.fExpiryMap []),
   (7, FieldVal.fAddrSet []),
   (8, FieldVal.fAddrSet [])]

/-- Table state produced by deserializing `blobBad` into `freshTable 0 0`. -/
def tBadLoaded : TableState :=
  { freshTable 0 0 with
    by_logarithm := emptyBuckets.set 5 [pBad]
    by_hamming := emptyBuckets.set 2 [pBad]
    know_peers := [(7, pBad)]
    known_uris := [(30, pBad)] }

/-- Peer 1 of the serialization-determinism counterexample (logarithmic bucket
`logId 9 2 = 3`, Hamming bucket `hammingId 9 2 = 3`). -/
def pOne : PeerInfo :=
  { address := 1, kademlia_address := 2, uri := 31, last_reporter := 0,
    verified := false, liveness := 1, last_seen := 0, trust_rank := 0 }

/-- Peer 2 of the serialization-determinism counterexample (logarithmic bucket
`logId 9 3 = 3`, Hamming bucket `hammingId 9 3 = 2`). -/
def pTwo : PeerInfo :=
  { address := 2, kademlia_address := 3, uri := 32, last_reporter := 0,
    verified := false, liveness := 1, last_seen := 0, trust_rank := 0 }

/-- Table holding peers `pOne` and `pTwo`, whose `know_peers_` container
enumerates `pOne` first. -/
def tOrderA : TableState :=
  { freshTable 5 9 with
    by_logarithm := emptyBuckets.set 3 [pOne, pTwo]
    by_hamming := (emptyBuckets.set 3 [pOne]).set 2 [pTwo]
    know_peers := [(1, pOne), (2, pTwo)]
    known_uris := [(31, pOne), (32, pTwo)] }

/-- The same abstract table contents as `tOrderA`, with the `know_peers_`
container enumerating `pTwo` first. -/
def tOrderB : TableState :=
  { tOrderA with know_peers := [(2, pTwo), (1, pOne)] }

/-- C1: the state persisted by Dump and consumed by Load is a tagged map with
exactly eight keys, ids 1 through 8 bound in order to BY_LOGARITHM,
BY_HAMMING, KNOWN_PEERS, KNOWN_URIS, CONNECTION_EXPIRY, DESIRED_EXPIRY,
DESIRED_PEERS and DESIRED_URIS, each carrying the member listed in the
section-6 table. -/
theorem dump_is_tagged_map_of_eight_fields (t : TableState) :
    serializeTable t =
      [(1, FieldVal.fBuckets t.by_logarithm),
       (2, FieldVal.fBuckets t.by_hamming),
       (3, FieldVal.fPeerMap t.know_peers),
       (4, FieldVal.fPeerMap t.known_uris),
       (5, FieldVal.fExpiryMap t.connection_expiry),
       (6, FieldVal.fExpiryMap t.desired_uri_expiry),
       (7, FieldVal.fAddrSet t.desired_peers),
       (8, FieldVal.fAddrSet t.desired_uris)] ∧
    (serializeTable t).map Prod.fst = [1, 2, 3, 4, 5, 6, 7, 8] ∧
    (serializeTable t).length = 8 :=
  ⟨rfl, rfl, rfl⟩

/-- C2 counterexample: deserializing a blob that stores peer `pBad` in
logarithmic bucket 5 succeeds and keeps `pBad` in bucket 5, although the index
recomputed from the loading table's own Kademlia address is
`logId 0 1 = 0`; the record is not discarded (it is still registered in
`know_peers_`), so bucket positions are taken from disk, not recomputed. -/
theorem load_keeps_disk_bucket_position_cex :
    deserializeTable blobBad (freshTable 0 0) = some tBadLoaded ∧
    pBad ∈ bucketAt tBadLoaded.by_logarithm 5 ∧
    logId tBadLoaded.own_kad_address pBad.kademlia_address = 0 ∧
    bucketAt tBadLoaded.by_logarithm 0 = [] ∧
    lookupA tBadLoaded.know_peers pBad.address = some pBad := by
  refine ⟨rfl, ?_, rfl, ?_, rfl⟩ <;> decide

/-- C2 amended: Load restores all eight persisted fields verbatim into the
existing table — the bucket arrays, and therefore every peer's bucket
position, come from the on-disk blob unchanged; nothing is recomputed from
`own_kad_address` and no record is discarded, while the own address fields
keep their current values; deserialization succeeds on every well-formed
eight-field blob (and in particular on every blob produced by Dump). -/
theorem load_restores_fields_verbatim (t0 t : TableState)
    (bl bh : List (List PeerInfo)) (kp ku : List (Nat × PeerInfo))
    (ce de : List (Nat × Nat)) (dp du : List Nat) :
    deserializeTable
      [(1, FieldVal.fBuckets bl), (2, FieldVal.fBuckets bh),
       (3, FieldVal.fPeerMap kp), (4, FieldVal.fPeerMap ku),
       (5, FieldVal.fExpiryMap ce), (6, FieldVal.fExpiryMap de),
       (7, FieldVal.fAddrSet dp), (8, FieldVal.fAddrSet du)] t0 =
      some { t0 with
        by_logarithm := bl
        by_hamming := bh
        know_peers := kp
        known_uris := ku
        connection_expiry := ce
        desired_uri_expiry := de
        desired_peers := dp
        desired_uris := du } ∧
    deserializeTable (serializeTable t) t0 = some (loadInto t0 t) :=
  ⟨rfl, rfl⟩

/-- C3 counterexample: the tables `tOrderA` and `tOrderB` hold equal state —
the same known peers (`know_peers_` containers equal as unordered maps, i.e.
permutations of each other), identical URIs, buckets, desired sets and
expiries — yet Dump serializes them to different blobs, because the
`std::unordered_map` member is written in container iteration order. -/
theorem dump_not_determined_by_abstract_state_cex :
    tOrderA.know_peers.Perm tOrderB.know_peers ∧
    tOrderA.known_uris = tOrderB.known_uris ∧
    tOrderA.by_logarithm = tOrderB.by_logarithm ∧
    tOrderA.by_hamming = tOrderB.by_hamming ∧
    tOrderA.connection_expiry = tOrderB.connection_expiry ∧
    tOrderA.desired_uri_expiry = tOrderB.desired_uri_expiry ∧
    tOrderA.desired_peers = tOrderB.desired_peers ∧
    tOrderA.desired_uris = tOrderB.desired_uris ∧
    tOrderA.own_address = tOrderB.own_address ∧
    tOrderA.own_kad_address = tOrderB.own_kad_address ∧
    serializeTable tOrderA ≠ serializeTable tOrderB := by
  refine ⟨?_, rfl, rfl, rfl, rfl, rfl, rfl, rfl, rfl, rfl, ?_⟩ <;> decide

/-- C3 amended: serialization is deterministic as a function of the concrete
container state — two tables produce byte-identical blobs exactly when their
eight persisted containers enumerate identical entry sequences; tables that
are equal only as unordered maps and sets may serialize differently. -/
theorem serialize_deterministic_in_container_state (s sa : TableState) :
    serializeTable s = serializeTable sa ↔
      (s.by_logarithm = sa.by_logarithm ∧
       s.by_hamming = sa.by_hamming ∧
       s.know_peers = sa.know_peers ∧
       s.known_uris = sa.known_uris ∧
       s.connection_expiry = sa.connection_expiry ∧
       s.desired_uri_expiry = sa.desired_uri_expiry ∧
       s.desired_peers = sa.desired_peers ∧
       s.desired_uris = sa.desired_uris) := by
  simp [serializeTable]

/-- C4: loading the blob written by Dump into a table with the same own
address, own Kademlia address and bucket capacity succeeds and yields a table
whose FindPeer answers coincide with the original's for every hasher and every
target (no stored bucket index is invalid against an unchanged
`own_kad_address`, so nothing is lost). -/
theorem load_dump_roundtrip_preserves_findPeer (t t0 : TableState)
    (h1 : t0.own_address = t.own_address)
    (h2 : t0.own_kad_address = t.own_kad_address)
    (h3 : t0.kademlia_max_peers_per_bucket = t.kademlia_max_peers_per_bucket) :
    deserializeTable (serializeTable t) t0 = some (loadInto t0 t) ∧
    ∀ hasher target,
      findPeer (loadInto t0 t) hasher target = findPeer t hasher target := by
  refine ⟨rfl, fun hasher target => ?_⟩
  simp [findPeer, findPeerInternal, loadInto, h1, h2, h3]

/-- C4 witness: the round-trip theorem applied to the concrete table `tW` and
a fresh table with the same own addresses. -/
theorem load_dump_roundtrip_preserves_findPeer_witness :
    ((freshTable 5 9).own_address = tW.own_address ∧
     (freshTable 5 9).own_kad_address = tW.own_kad_address ∧
     (freshTable 5 9).kademlia_max_peers_per_bucket =
       tW.kademlia_max_peers_per_bucket) ∧
    deserializeTable (serializeTable tW) (freshTable 5 9) =
      some (loadInto (freshTable 5 9) tW) ∧
    ∀ hasher target,
      findPeer (loadInto (freshTable 5 9) tW) hasher target =
        findPeer tW hasher target :=
  ⟨⟨rfl, rfl, rfl⟩,
    load_dump_roundtrip_preserves_findPeer tW (freshTable 5 9) rfl rfl rfl⟩

/-- A sublist of a list of lists flattens to a sublist of the flattening. -/
theorem flatten_sublist_of_sublist {α : Type} {L1 L2 : List (List α)}
    (h : L1.Sublist L2) : L1.flatten.Sublist L2.flatten := by
  induction h with
  | slnil => exact List.Sublist.refl _
  | cons l _h ih =>
    simp only [List.flatten_cons]
    exact ih.trans (List.sublist_append_right l _)
  | cons₂ l _h ih =>
    simp only [List.flatten_cons]
    exact ih.append_left l

/-- The bucket collector returns its accumulator followed by the flattening of
the buckets of some prefix of the scan order. -/
theorem collectGo_eq (K : Nat) (bks : List (List PeerInfo)) (idxs : List Nat) :
    ∀ acc : List PeerInfo, ∃ m,
      collectGo K bks idxs acc =
        acc ++ ((idxs.take m).map (bucketAt bks)).flatten := by
  induction idxs with
  | nil => exact fun acc => ⟨0, by simp [collectGo]⟩
  | cons i rest ih =>
    intro acc
    by_cases h : K ≤ acc.length
    · exact ⟨0, by simp [collectGo, h]⟩
    · obtain ⟨m, hm⟩ := ih (acc ++ bucketAt bks i)
      exact ⟨m + 1, by simp [collectGo, h, hm, List.append_assoc]⟩

/-- Addresses of a bucket, read through the address-level bucket array. -/
theorem bucketAt_map_address (bks : List (List PeerInfo)) (i : Nat) :
    (bucketAt bks i).map PeerInfo.address =
      (bks.map (fun b => b.map PeerInfo.address)).getD i [] := by
  simp only [bucketAt, List.getD_eq_getElem?_getD, List.getElem?_map]
  cases bks[i]? <;> rfl

/-- Addresses of the flattening of selected buckets, read through the
address-level bucket array. -/
theorem collect_map_address (bks : List (List PeerInfo)) (idxs : List Nat) :
    ((idxs.map (bucketAt bks)).flatten).map PeerInfo.address =
      (idxs.map
        (fun j => (bks.map (fun b => b.map PeerInfo.address)).getD j [])).flatten := by
  rw [List.map_flatten, List.map_map]
  congr 1
  exact List.map_congr_left
    (fun a _ => by simpa [Function.comp] using bucketAt_map_address bks a)

/-- Selecting buckets of a duplicate-free flattening at pairwise distinct
indices yields a duplicate-free flattening. -/
theorem nodup_flatten_selected (A : List (List Nat)) (idxs : List Nat)
    (hA : A.flatten.Nodup) (hidx : idxs.Nodup) :
    ((idxs.map (fun i => A.getD i [])).flatten).Nodup := by
  rcases List.nodup_flatten.mp hA with ⟨hEach, hDisj⟩
  refine List.nodup_flatten.mpr ⟨?_, ?_⟩
  · intro l hl
    rcases List.mem_map.mp hl with ⟨i, _hi, rfl⟩
    by_cases h : i < A.length
    · rw [List.getD_eq_getElem?_getD, List.getElem?_eq_getElem h]
      exact hEach _ (List.getElem_mem h)
    · rw [List.getD_eq_getElem?_getD, List.getElem?_eq_none (Nat.le_of_not_lt h)]
      exact List.nodup_nil
  · have key : ∀ a b : Nat, a ≠ b →
        (A.getD a []).Disjoint (A.getD b []) := by
      intro a b hab
      by_cases ha : a < A.length
      · by_cases hb : b < A.length
        · rw [List.getD_eq_getElem?_getD, List.getElem?_eq_getElem ha,
            List.getD_eq_getElem?_getD, List.getElem?_eq_getElem hb]
          rcases Nat.lt_or_ge a b with h | h
          · exact List.pairwise_iff_getElem.mp hDisj a b ha hb h
          · exact (List.pairwise_iff_getElem.mp hDisj b a hb ha
              (Nat.lt_of_le_of_ne h (Ne.symm hab))).symm
        · rw [List.getD_eq_getElem?_getD A b,
            List.getElem?_eq_none (Nat.le_of_not_lt hb)]
          intro x _hx hx2
          cases hx2
      · rw [List.getD_eq_getElem?_getD A a,
          List.getElem?_eq_none (Nat.le_of_not_lt ha)]
        intro x hx
        cases hx
    exact List.Pairwise.map _ key hidx

/-- The alternating interleave is a permutation of the two index lists. -/
theorem mergeAlt_perm (xs : List Nat) : ∀ ys, (mergeAlt xs ys).Perm (xs ++ ys) := by
  induction xs with
  | nil => intro ys; simp [mergeAlt]
  | cons x xs ih =>
    intro ys
    cases ys with
    | nil => simp [mergeAlt]
    | cons y ys =>
      show (x :: y :: mergeAlt xs ys).Perm (x :: (xs ++ y :: ys))
      exact (((ih ys).cons y).trans List.perm_middle.symm).cons x

/-- The FindPeer scan order visits pairwise distinct bucket indices. -/
theorem scanOrder_nodup (i : Nat) : (scanOrder i).Nodup := by
  have hperm : (scanOrder i).Perm
      (i :: ((List.range i).reverse ++
        List.range' (i + 1) (KADEMLIA_MAX_ID_BITS - i))) :=
    (mergeAlt_perm _ _).cons i
  refine hperm.nodup_iff.mpr ?_
  refine List.nodup_cons.mpr ⟨?_, List.nodup_append.mpr ⟨?_, ?_, ?_⟩⟩
  · intro h
    rcases List.mem_append.mp h with h | h
    · exact absurd (List.mem_range.mp (List.mem_reverse.mp h)) (Nat.lt_irrefl i)
    · have := (List.mem_range'_1.mp h).1
      omega
  · exact List.nodup_reverse.mpr (List.nodup_range i)
  · exact List.nodup_range' _ _
  · intro x hx hx2
    have h1 := List.mem_range.mp (List.mem_reverse.mp hx)
    have h2 := (List.mem_range'_1.mp hx2).1
    omega

/-- Addresses of the peers collected along the scan order are pairwise
distinct in a well-formed table. -/
theorem collected_addresses_nodup (t : TableState) (hwf : bucketsWf t)
    (K idx : Nat) :
    ((collectUpTo K t.by_logarithm (scanOrder idx)).map PeerInfo.address).Nodup := by
  obtain ⟨m, hm⟩ := collectGo_eq K t.by_logarithm (scanOrder idx) []
  rw [collectUpTo, hm, List.nil_append, collect_map_address]
  exact nodup_flatten_selected _ _ hwf
    (List.Nodup.sublist (List.take_sublist _ _) (scanOrder_nodup idx))

/-- C5: for every well-formed table state (no address occurs twice across the
logarithmic buckets — invariant 1 of the spec), every hasher and every target,
FindPeer returns at most K peers, sorted ascending by XOR distance between
hash(target) and each peer's Kademlia address, with pairwise distinct
addresses, and the result never contains the own address. -/
theorem findPeer_sorted_bounded_distinct (t : TableState)
    (hasher : Nat → Nat) (target : Nat) (hwf : bucketsWf t) :
    (findPeer t hasher target).length ≤ t.kademlia_max_peers_per_bucket ∧
    List.Sorted (peerNear (hasher target)) (findPeer t hasher target) ∧
    ((findPeer t hasher target).map PeerInfo.address).Nodup ∧
    t.own_address ∉ (findPeer t hasher target).map PeerInfo.address := by
  unfold findPeer findPeerInternal
  refine ⟨?_, ?_, ?_, ?_⟩
  · exact le_trans (List.length_filter_le _ _) (List.length_take_le _ _)
  · exact List.Pairwise.sublist
      ((List.filter_sublist _).trans (List.take_sublist _ _))
      (List.sorted_insertionSort _ _)
  · have hcol := collected_addresses_nodup t hwf t.kademlia_max_peers_per_bucket
      (logId t.own_kad_address (hasher target))
    have hperm :
        ((List.insertionSort (peerNear (hasher target))
          (collectUpTo t.kademlia_max_peers_per_bucket t.by_logarithm
            (scanOrder (logId t.own_kad_address (hasher target))))).map
          PeerInfo.address).Perm
        ((collectUpTo t.kademlia_max_peers_per_bucket t.by_logarithm
          (scanOrder (logId t.own_kad_address (hasher target)))).map
          PeerInfo.address) :=
      (List.perm_insertionSort _ _).map _
    exact List.Nodup.sublist
      (List.Sublist.map _
        ((List.filter_sublist _).trans (List.take_sublist _ _)))
      (hperm.nodup_iff.mpr hcol)
  · intro hmem
    rcases List.mem_map.mp hmem with ⟨p, hp, hpa⟩
    have hne : p.address ≠ t.own_address := by
      simpa using List.of_mem_filter hp
    exact hne hpa

/-- C5 witness: the FindPeer theorem applied to the concrete table `tW` with
the identity hasher and target 2. -/
theorem findPeer_sorted_bounded_distinct_witness :
    bucketsWf tW ∧
    ((findPeer tW (fun a => a) 2).length ≤ tW.kademlia_max_peers_per_bucket ∧
     List.Sorted (peerNear ((fun a : Nat => a) 2)) (findPeer tW (fun a => a) 2) ∧
     ((findPeer tW (fun a => a) 2).map PeerInfo.address).Nodup ∧
     tW.own_address ∉ (findPeer tW (fun a => a) 2).map PeerInfo.address) :=
  ⟨by decide, findPeer_sorted_bounded_distinct tW (fun a => a) 2 (by decide)⟩

/-- Mapping the values of an association list commutes with key lookup. -/
theorem find?_map_value (l : List (Nat × PeerInfo)) (g : PeerInfo → PeerInfo)
    (b : Nat) :
    (l.map (fun kv => (kv.1, g kv.2))).find? (fun kv => kv.1 == b) =
      (l.find? (fun kv => kv.1 == b)).map (fun kv => (kv.1, g kv.2)) := by
  induction l with
  | nil => rfl
  | cons kv rest ih =>
    by_cases h : kv.1 == b <;> simp [List.find?_cons, h, ih]

/-- Lookup after a shared-peer update returns the updated record. -/
theorem lookupA_updatePeer (t : TableState) (a : Nat) (f : PeerInfo → PeerInfo)
    (b : Nat) :
    lookupA (updatePeer t a f).know_peers b =
      (lookupA t.know_peers b).map (gUpdate a f) := by
  simp only [lookupA, updatePeer, find?_map_value]
  cases t.know_peers.find? (fun kv => kv.1 == b) <;> rfl

/-- After `removePeer t a`, address `a` is gone from both indexes and both
bucket arrays. -/
theorem removePeer_absent (t : TableState) (a : Nat) :
    peerAbsent (removePeer t a) a := by
  refine ⟨?_, ?_, ?_, ?_⟩
  · have hfind : (t.know_peers.filter (fun kv => kv.1 != a)).find?
        (fun kv => kv.1 == a) = none :=
      List.find?_eq_none.mpr (fun x hx => by simpa using List.of_mem_filter hx)
    simp [removePeer, lookupA, hfind]
  · intro kv hkv
    have := List.of_mem_filter hkv
    simpa using this
  · intro b hb p hp
    rcases List.mem_map.mp hb with ⟨b0, _hb0, rfl⟩
    simpa using List.of_mem_filter hp
  · intro b hb p hp
    rcases List.mem_map.mp hb with ⟨b0, _hb0, rfl⟩
    simpa using List.of_mem_filter hp

/-- ReportFailure is a no-op on an address absent from the table. -/
theorem reportFailure_of_absent (t : TableState) (a r : Nat)
    (h : peerAbsent t a) : reportFailure t a r = t := by
  simp [reportFailure, h.1]

/-- Iterating ReportFailure keeps an absent address absent. -/
theorem peerAbsent_iterate (a r m : Nat) (s : TableState)
    (h : peerAbsent s a) :
    peerAbsent ((fun u => reportFailure u a r)^[m] s) a := by
  induction m with
  | zero => simpa using h
  | succ m ih =>
    rw [Function.iterate_succ_apply, reportFailure_of_absent s a r h]
    exact ih

/-- Iterating ReportFailure once more than the peer's current liveness removes
it from every collection. -/
theorem failure_iter_removes (a r : Nat) :
    ∀ (n : Nat) (t : TableState) (p : PeerInfo),
      lookupA t.know_peers a = some p → p.address = a → p.liveness ≤ n →
      peerAbsent ((fun u => reportFailure u a r)^[n + 1] t) a := by
  intro n
  induction n with
  | zero =>
    intro t p hl hpa hlv
    rw [Function.iterate_one]
    have h1 : p.liveness ≤ 1 := Nat.le_succ_of_le hlv
    simpa [reportFailure, hl, h1] using removePeer_absent t a
  | succ n ih =>
    intro t p hl hpa hlv
    rw [Function.iterate_succ_apply]
    by_cases h1 : p.liveness ≤ 1
    · have habs : peerAbsent (reportFailure t a r) a := by
        simpa [reportFailure, hl, h1] using removePeer_absent t a
      exact peerAbsent_iterate a r (n + 1) _ habs
    · have hstep : reportFailure t a r =
          updatePeer t a (fun q => { q with liveness := q.liveness - 1 }) := by
        simp [reportFailure, hl, h1]
      rw [hstep]
      refine ih _ { p with liveness := p.liveness - 1 } ?_ hpa ?_
      · rw [lookupA_updatePeer, hl]
        simp [gUpdate, hpa]
      · show p.liveness - 1 ≤ n
        omega

/-- C8: for a known peer whose liveness is at most the configured maximum,
applying ReportFailure `lmax + 1` times removes it from `know_peers_`,
`known_uris_` and both bucket arrays; moreover a single ReportFailure on a
peer with liveness at least 2 decrements its liveness by one (removal, the
forward advance of the cached first-non-empty bucket and the bucket filtering
being the `removePeer` step of the embedded `reportFailure`). -/
theorem reportFailure_liveness_max_removes (t : TableState) (a r lmax : Nat)
    (p : PeerInfo) (hl : lookupA t.know_peers a = some p) (hpa : p.address = a)
    (hlv : p.liveness ≤ lmax) :
    peerAbsent ((fun u => reportFailure u a r)^[lmax + 1] t) a ∧
    (2 ≤ p.liveness →
      lookupA (reportFailure t a r).know_peers a =
        some { p with liveness := p.liveness - 1 }) := by
  refine ⟨failure_iter_removes a r lmax t p hl hpa hlv, fun h2 => ?_⟩
  have h1 : ¬p.liveness ≤ 1 := by omega
  have hstep : reportFailure t a r =
      updatePeer t a (fun q => { q with liveness := q.liveness - 1 }) := by
    simp [reportFailure, hl, h1]
  rw [hstep, lookupA_updatePeer, hl]
  simp [gUpdate, hpa]

/-- C8 witness: the removal theorem applied to the concrete table `tW`, whose
peer `pW` has liveness 3, with liveness maximum 5. -/
theorem reportFailure_liveness_max_removes_witness :
    (lookupA tW.know_peers 1 = some pW ∧ pW.address = 1 ∧ pW.liveness ≤ 5) ∧
    (peerAbsent ((fun u => reportFailure u 1 0)^[6] tW) 1 ∧
     (2 ≤ pW.liveness →
       lookupA (reportFailure tW 1 0).know_peers 1 =
         some { pW with liveness := pW.liveness - 1 })) :=
  ⟨⟨by decide, by decide, by decide⟩,
    reportFailure_liveness_max_removes tW 1 0 5 pW (by decide) (by decide)
      (by decide)⟩

/-- A map whose function fixes every element of the list is the identity. -/
theorem map_eq_self_of_fix {α : Type} (l : List α) (g : α → α)
    (h : ∀ x ∈ l, g x = x) : l.map g = l := by
  induction l with
  | nil => rfl
  | cons x xs ih =>
    rw [List.map_cons, h x (List.mem_cons_self x xs),
      ih (fun y hy => h y (List.mem_cons_of_mem x hy))]

/-- A member of some bucket of the array is a member of one of its lists. -/
theorem mem_bucketAt {bks : List (List PeerInfo)} {i : Nat} {p : PeerInfo}
    (h : p ∈ bucketAt bks i) : ∃ b ∈ bks, p ∈ b := by
  unfold bucketAt at h
  rw [List.getD_eq_getElem?_getD] at h
  cases hx : bks[i]? with
  | none => rw [hx] at h; cases h
  | some b =>
    rw [hx] at h
    rcases List.getElem?_eq_some_iff.mp hx with ⟨hlt, hEq⟩
    exact ⟨b, hEq ▸ List.getElem_mem hlt, h⟩

/-- The pointwise update is the identity on a peer with a different address. -/
theorem gUpdate_of_ne {a : Nat} {p : PeerInfo} (f : PeerInfo → PeerInfo)
    (h : p.address ≠ a) : gUpdate a f p = p := if_neg h

/-- The pointwise update applies `f` to a peer with the matching address. -/
theorem gUpdate_self {a : Nat} {p : PeerInfo} (f : PeerInfo → PeerInfo)
    (h : p.address = a) : gUpdate a f p = f p := if_pos h

/-- A shared-peer update whose function fixes every copy it touches leaves the
table unchanged. -/
theorem updatePeer_eq_self (t : TableState) (a : Nat) (f : PeerInfo → PeerInfo)
    (hk : ∀ kv ∈ t.know_peers, gUpdate a f kv.2 = kv.2)
    (hu : ∀ kv ∈ t.known_uris, gUpdate a f kv.2 = kv.2)
    (hbl : ∀ b ∈ t.by_logarithm, ∀ p ∈ b, gUpdate a f p = p)
    (hbh : ∀ b ∈ t.by_hamming, ∀ p ∈ b, gUpdate a f p = p) :
    updatePeer t a f = t := by
  have e1 : t.know_peers.map (fun kv => (kv.1, gUpdate a f kv.2)) = t.know_peers :=
    map_eq_self_of_fix _ _ (fun kv hkv => by rw [hk kv hkv])
  have e2 : t.known_uris.map (fun kv => (kv.1, gUpdate a f kv.2)) = t.known_uris :=
    map_eq_self_of_fix _ _ (fun kv hkv => by rw [hu kv hkv])
  have e3 : t.by_logarithm.map (fun b => b.map (gUpdate a f)) = t.by_logarithm :=
    map_eq_self_of_fix _ _
      (fun b hb => map_eq_self_of_fix _ _ (fun p hp => hbl b hb p hp))
  have e4 : t.by_hamming.map (fun b => b.map (gUpdate a f)) = t.by_hamming :=
    map_eq_self_of_fix _ _
      (fun b hb => map_eq_self_of_fix _ _ (fun p hp => hbh b hb p hp))
  unfold updatePeer
  rw [e1, e2, e3, e4]

/-- Applying the same shared-peer update twice is the same as applying it
once, provided the function is pointwise idempotent and address-preserving. -/
theorem updatePeer_idem (t : TableState) (a : Nat) (f : PeerInfo → PeerInfo)
    (haddr : ∀ p, (f p).address = p.address) (hff : ∀ p, f (f p) = f p) :
    updatePeer (updatePeer t a f) a f = updatePeer t a f := by
  have hgg : ∀ p, gUpdate a f (gUpdate a f p) = gUpdate a f p := by
    intro p
    unfold gUpdate
    by_cases h : p.address = a
    · rw [if_pos h, if_pos ((haddr p).trans h), hff]
    · rw [if_neg h, if_neg h]
  refine updatePeer_eq_self _ _ _ ?_ ?_ ?_ ?_
  · intro kv hkv
    rcases List.mem_map.mp hkv with ⟨kv0, _h0, rfl⟩
    exact hgg kv0.2
  · intro kv hkv
    rcases List.mem_map.mp hkv with ⟨kv0, _h0, rfl⟩
    exact hgg kv0.2
  · intro b hb p hp
    rcases List.mem_map.mp hb with ⟨b0, _hb0, rfl⟩
    rcases List.mem_map.mp hp with ⟨p0, _hp0, rfl⟩
    exact hgg p0
  · intro b hb p hp
    rcases List.mem_map.mp hb with ⟨b0, _hb0, rfl⟩
    rcases List.mem_map.mp hp with ⟨p0, _hp0, rfl⟩
    exact hgg p0

/-- The merge step preserves the peer's address. -/
theorem mergeInfo_address (info : PeerInfo) (r : Nat) (p : PeerInfo) :
    (mergeInfo info r p).address = p.address := rfl

/-- The merge step is pointwise idempotent. -/
theorem mergeInfo_idem (info : PeerInfo) (r : Nat) (p : PeerInfo) :
    mergeInfo info r (mergeInfo info r p) = mergeInfo info r p := by
  by_cases h : p.verified <;> simp [mergeInfo, h]

/-- The merge step fixes the record that ReportExistence itself registered. -/
theorem mergeInfo_fix (info : PeerInfo) (r : Nat) :
    mergeInfo info r { info with last_reporter := r } =
      { info with last_reporter := r } := by
  simp [mergeInfo]

/-- Coherence plus a failed lookup means the address occurs nowhere. -/
theorem addrFree_of_coherent (t : TableState) (a : Nat) (hco : coherent t)
    (hl : lookupA t.know_peers a = none) : addrFree t a := by
  have hnone : t.know_peers.find? (fun kv => kv.1 == a) = none := by
    unfold lookupA at hl
    cases hx : t.know_peers.find? (fun kv => kv.1 == a) with
    | none => rfl
    | some v => rw [hx] at hl; cases hl
  have hkeys : ∀ kv ∈ t.know_peers, kv.1 ≠ a := by
    intro kv hkv hEq
    have := List.find?_eq_none.mp hnone kv hkv
    simp [hEq] at this
  have hvals : ∀ kv ∈ t.know_peers, (kv.2).address ≠ a := by
    intro kv hkv
    rw [hco.1 kv hkv]
    exact hkeys kv hkv
  refine ⟨hkeys, hvals, ?_, ?_, ?_⟩
  · intro kv hkv hEq
    have := hco.2.1 kv hkv
    rw [hEq, hl] at this
    simp at this
  · intro b hb p hp hEq
    have := hco.2.2.1 b hb p hp
    rw [hEq, hl] at this
    simp at this
  · intro b hb p hp hEq
    have := hco.2.2.2 b hb p hp
    rw [hEq, hl] at this
    simp at this

/-- Removal preserves the absence of an address. -/
theorem addrFree_removePeer (t : TableState) (a b : Nat) (h : addrFree t a) :
    addrFree (removePeer t b) a := by
  obtain ⟨h1, h2, h3, h4, h5⟩ := h
  refine ⟨?_, ?_, ?_, ?_, ?_⟩ <;> simp only [removePeer]
  · intro kv hkv
    exact h1 kv (List.mem_of_mem_filter hkv)
  · intro kv hkv
    exact h2 kv (List.mem_of_mem_filter hkv)
  · intro kv hkv
    exact h3 kv (List.mem_of_mem_filter hkv)
  · intro b2 hb2 p hp
    rcases List.mem_map.mp hb2 with ⟨b0, hb0, rfl⟩
    exact h4 b0 hb0 p (List.mem_of_mem_filter hp)
  · intro b2 hb2 p hp
    rcases List.mem_map.mp hb2 with ⟨b0, hb0, rfl⟩
    exact h5 b0 hb0 p (List.mem_of_mem_filter hp)

/-- Eviction preserves the absence of an address. -/
theorem addrFree_evictFor (t : TableState) (a : Nat) (b : List PeerInfo)
    (h : addrFree t a) : addrFree (evictFor t b) a := by
  unfold evictFor
  split
  · exact h
  · split
    · exact addrFree_removePeer _ _ _ h
    · exact h

/-- Eviction does not change the own addresses or the bucket capacity. -/
theorem evictFor_fields (t : TableState) (b : List PeerInfo) :
    (evictFor t b).own_address = t.own_address ∧
    (evictFor t b).own_kad_address = t.own_kad_address ∧
    (evictFor t b).kademlia_max_peers_per_bucket =
      t.kademlia_max_peers_per_bucket := by
  unfold evictFor
  split
  · exact ⟨rfl, rfl, rfl⟩
  · split <;> exact ⟨rfl, rfl, rfl⟩

/-- A second ReportExistence right after the registration step of a first one
merges in place and changes nothing. -/
theorem reportExistence_after_insert (t2 : TableState) (info : PeerInfo)
    (r li hi : Nat) (haf : addrFree t2 info.address)
    (hown2 : info.address ≠ t2.own_address) :
    reportExistence (registerNew t2 info r li hi) info r =
      registerNew t2 info r li hi := by
  have hfindL : t2.know_peers.find? (fun kv => kv.1 == info.address) = none :=
    List.find?_eq_none.mpr (fun kv hkv => by simpa using haf.1 kv hkv)
  have hlook : lookupA (registerNew t2 info r li hi).know_peers info.address =
      some { info with last_reporter := r } := by
    simp [registerNew, lookupA, List.find?_append, hfindL]
  have hB : (registerNew t2 info r li hi).own_address = t2.own_address := rfl
  have h2 : reportExistence (registerNew t2 info r li hi) info r =
      updatePeer (registerNew t2 info r li hi) info.address (mergeInfo info r) := by
    simp [reportExistence, hlook, hB, hown2]
  rw [h2]
  refine updatePeer_eq_self _ _ _ ?_ ?_ ?_ ?_
  · intro kv hkv
    rcases List.mem_append.mp hkv with hkv | hkv
    · exact gUpdate_of_ne _ (haf.2.1 kv hkv)
    · have hkv2 : kv = (info.address, { info with last_reporter := r }) := by
        simpa using hkv
      rw [hkv2]
      exact (gUpdate_self (a := info.address)
        (p := { info with last_reporter := r }) (mergeInfo info r) rfl).trans
        (mergeInfo_fix info r)
  · intro kv hkv
    rcases List.mem_append.mp hkv with hkv | hkv
    · exact gUpdate_of_ne _ (haf.2.2.1 kv (List.mem_of_mem_filter hkv))
    · have hkv2 : kv = (info.uri, { info with last_reporter := r }) := by
        simpa using hkv
      rw [hkv2]
      exact (gUpdate_self (a := info.address)
        (p := { info with last_reporter := r }) (mergeInfo info r) rfl).trans
        (mergeInfo_fix info r)
  · intro b hb p hp
    rcases List.mem_or_eq_of_mem_set hb with hb | hbq
    · exact gUpdate_of_ne _ (haf.2.2.2.1 b hb p hp)
    · rw [hbq] at hp
      rcases List.mem_cons.mp hp with hpq | hp
      · rw [hpq]
        exact (gUpdate_self (a := info.address)
          (p := { info with last_reporter := r }) (mergeInfo info r) rfl).trans
          (mergeInfo_fix info r)
      · rcases mem_bucketAt hp with ⟨b0, hb0, hpb0⟩
        exact gUpdate_of_ne _ (haf.2.2.2.1 b0 hb0 p hpb0)
  · intro b hb p hp
    rcases List.mem_or_eq_of_mem_set hb with hb | hbq
    · exact gUpdate_of_ne _ (haf.2.2.2.2 b hb p hp)
    · rw [hbq] at hp
      rcases List.mem_cons.mp hp with hpq | hp
      · rw [hpq]
        exact (gUpdate_self (a := info.address)
          (p := { info with last_reporter := r }) (mergeInfo info r) rfl).trans
          (mergeInfo_fix info r)
      · rcases mem_bucketAt hp with ⟨b0, hb0, hpb0⟩
        exact gUpdate_of_ne _ (haf.2.2.2.2 b0 hb0 p hpb0)

/-- C7: ReportExistence is idempotent on every coherent table state — two
consecutive identical `ReportExistence(info, r)` calls leave the table in the
same state as one (coherence: the four collections reference the same records,
invariant 1 of the spec). -/
theorem reportExistence_idem (t : TableState) (info : PeerInfo) (r : Nat)
    (hco : coherent t) :
    reportExistence (reportExistence t info r) info r =
      reportExistence t info r := by
  by_cases hown : info.address = t.own_address
  · have h1 : reportExistence t info r = t := by
      simp [reportExistence, hown]
    rw [h1]
    exact h1
  · cases hl : lookupA t.know_peers info.address with
    | some p =>
      have h1 : reportExistence t info r =
          updatePeer t info.address (mergeInfo info r) := by
        simp [reportExistence, hown, hl]
      have hB : (updatePeer t info.address (mergeInfo info r)).own_address =
          t.own_address := rfl
      have hl2 : lookupA (updatePeer t info.address (mergeInfo info r)).know_peers
          info.address = some (gUpdate info.address (mergeInfo info r) p) := by
        rw [lookupA_updatePeer, hl]
        rfl
      rw [h1]
      have h2 : reportExistence (updatePeer t info.address (mergeInfo info r))
          info r =
          updatePeer (updatePeer t info.address (mergeInfo info r)) info.address
            (mergeInfo info r) := by
        simp [reportExistence, hl2, hB, hown]
      rw [h2]
      exact updatePeer_idem t info.address (mergeInfo info r)
        (fun q => rfl) (mergeInfo_idem info r)
    | none =>
      by_cases hcan : (canInsert t.kademlia_max_peers_per_bucket info
            (bucketAt t.by_logarithm (logId t.own_kad_address info.kademlia_address))
          && canInsert t.kademlia_max_peers_per_bucket info
            (bucketAt t.by_hamming (hammingId t.own_kad_address info.kademlia_address))) = true
      · have h1 : reportExistence t info r = insertNew t info r := by
          simp [reportExistence, hown, hl, hcan]
        rw [h1]
        have haf : addrFree t info.address := addrFree_of_coherent t _ hco hl
        have haf1 : addrFree (evictFor t (bucketAt t.by_logarithm
            (logId t.own_kad_address info.kademlia_address))) info.address :=
          addrFree_evictFor _ _ _ haf
        have haf2 : addrFree (evictFor (evictFor t (bucketAt t.by_logarithm
            (logId t.own_kad_address info.kademlia_address)))
            (bucketAt (evictFor t (bucketAt t.by_logarithm
              (logId t.own_kad_address info.kademlia_address))).by_hamming
              (hammingId t.own_kad_address info.kademlia_address))) info.address :=
          addrFree_evictFor _ _ _ haf1
        have hown3 : info.address ≠ (evictFor (evictFor t (bucketAt t.by_logarithm
            (logId t.own_kad_address info.kademlia_address)))
            (bucketAt (evictFor t (bucketAt t.by_logarithm
              (logId t.own_kad_address info.kademlia_address))).by_hamming
              (hammingId t.own_kad_address info.kademlia_address))).own_address := by
          rw [(evictFor_fields _ _).1, (evictFor_fields _ _).1]
          exact hown
        exact reportExistence_after_insert _ info r _ _ haf2 hown3
      · have h1 : reportExistence t info r = t := by
          simp [reportExistence, hown, hl, hcan]
        rw [h1]
        exact h1

/-- C7 witness: the idempotence theorem applied to the concrete coherent table
`tW` and the fresh report `pNew`. -/
theorem reportExistence_idem_witness :
    coherent tW ∧
    reportExistence (reportExistence tW pNew 3) pNew 3 =
      reportExistence tW pNew 3 :=
  ⟨by decide, reportExistence_idem tW pNew 3 (by decide)⟩

/-- Invariant of the fold computing the highest-liveness peer of a bucket. -/
theorem maxLive_fold (b : List PeerInfo) :
    ∀ (acc : Option PeerInfo) (p : PeerInfo),
      b.foldl (fun acc p =>
        match acc with
        | none => some p
        | some q => if q.liveness < p.liveness then some p else some q) acc =
        some p →
      (acc = some p ∨ p ∈ b) ∧ (∀ q ∈ b, q.liveness ≤ p.liveness) ∧
        (∀ q, acc = some q → q.liveness ≤ p.liveness) := by
  induction b with
  | nil =>
    intro acc p h
    simp only [List.foldl_nil] at h
    refine ⟨Or.inl h, by simp, fun q hq => ?_⟩
    rw [h] at hq
    cases hq
    exact Nat.le_refl _
  | cons x xs ih =>
    intro acc p h
    simp only [List.foldl_cons] at h
    cases acc with
    | none =>
      obtain ⟨h1, h2, h3⟩ := ih (some x) p h
      have hx : x.liveness ≤ p.liveness := h3 x rfl
      refine ⟨Or.inr ?_, ?_, ?_⟩
      · rcases h1 with h1 | h1
        · cases h1
          exact List.mem_cons_self _ _
        · exact List.mem_cons_of_mem _ h1
      · intro q hq
        rcases List.mem_cons.mp hq with rfl | hq
        · exact hx
        · exact h2 q hq
      · intro q hq
        cases hq
    | some a0 =>
      dsimp only at h
      by_cases hlt : a0.liveness < x.liveness
      · rw [if_pos hlt] at h
        obtain ⟨h1, h2, h3⟩ := ih (some x) p h
        have hx : x.liveness ≤ p.liveness := h3 x rfl
        refine ⟨Or.inr ?_, ?_, ?_⟩
        · rcases h1 with h1 | h1
          · cases h1
            exact List.mem_cons_self _ _
          · exact List.mem_cons_of_mem _ h1
        · intro q hq
          rcases List.mem_cons.mp hq with rfl | hq
          · exact hx
          · exact h2 q hq
        · intro q hq
          cases hq
          exact Nat.le_trans (Nat.le_of_lt hlt) hx
      · rw [if_neg hlt] at h
        obtain ⟨h1, h2, h3⟩ := ih (some a0) p h
        have ha0 : a0.liveness ≤ p.liveness := h3 a0 rfl
        refine ⟨?_, ?_, ?_⟩
        · rcases h1 with h1 | h1
          · exact Or.inl h1
          · exact Or.inr (List.mem_cons_of_mem _ h1)
        · intro q hq
          rcases List.mem_cons.mp hq with rfl | hq
          · exact Nat.le_trans (Nat.le_of_not_lt hlt) ha0
          · exact h2 q hq
        · intro q hq
          cases hq
          exact ha0

/-- The highest-liveness pick of a bucket is a member and dominates it. -/
theorem maxLive_mem (b : List PeerInfo) (p : PeerInfo)
    (h : maxLive b = some p) :
    p ∈ b ∧ ∀ q ∈ b, q.liveness ≤ p.liveness := by
  obtain ⟨h1, h2, _⟩ := maxLive_fold b none p h
  rcases h1 with h1 | h1
  · cases h1
  · exact ⟨h1, h2⟩

/-- The fold of the highest-liveness pick never loses a seeded candidate. -/
theorem maxLive_fold_isSome (xs : List PeerInfo) :
    ∀ q : PeerInfo,
      xs.foldl (fun acc p =>
        match acc with
        | none => some p
        | some q => if q.liveness < p.liveness then some p else some q)
        (some q) ≠ none := by
  induction xs with
  | nil => intro q h; cases h
  | cons x xs ih =>
    intro q
    simp only [List.foldl_cons]
    by_cases hlt : q.liveness < x.liveness
    · rw [if_pos hlt]
      exact ih x
    · rw [if_neg hlt]
      exact ih q

/-- An empty bucket yields no pick, a non-empty bucket always yields one. -/
theorem maxLive_eq_none_iff (b : List PeerInfo) : maxLive b = none ↔ b = [] := by
  constructor
  · intro h
    cases b with
    | nil => rfl
    | cons x xs =>
      exact absurd h (by simpa [maxLive] using maxLive_fold_isSome xs x)
  · intro h
    rw [h]
    rfl

/-- Dropping the elements mapped to `none` does not change a `filterMap`. -/
theorem filterMap_filter_eq {α β : Type} (g : α → Bool) (f : α → Option β)
    (l : List α) (h : ∀ x ∈ l, g x = false → f x = none) :
    (l.filter g).filterMap f = l.filterMap f := by
  induction l with
  | nil => rfl
  | cons x xs ih =>
    have ihx := ih (fun y hy hgy => h y (List.mem_cons_of_mem x hy) hgy)
    by_cases hg : g x = true
    · rw [List.filter_cons_of_pos hg, List.filterMap_cons, List.filterMap_cons]
      cases f x <;> rw [ihx]
    · have hg2 : g x = false := by
        cases hgx : g x
        · rfl
        · exact absurd hgx hg
      rw [List.filter_cons_of_neg (by simp [hg2]), List.filterMap_cons,
        h x (List.mem_cons_self x xs) hg2, ihx]

/-- C9: the output of ProposePermanentConnections contains every desired peer
that is currently known; the output is the deterministic concatenation of the
known desired peers, in the desired set's order, with one pick per non-empty
logarithmic bucket in ascending bucket order from bucket 0 upward; and each
pick is a member of its bucket with the highest liveness among the bucket's
peers. -/
theorem propose_contains_desired_and_is_ordered (t : TableState) :
    (∀ a ∈ t.desired_peers, ∀ p, lookupA t.know_peers a = some p →
      p ∈ proposePermanentConnections t) ∧
    proposePermanentConnections t =
      (t.desired_peers.filterMap (fun a => lookupA t.know_peers a)) ++
        (((List.range (KADEMLIA_MAX_ID_BITS + 1)).filter
            (fun i => !(bucketAt t.by_logarithm i).isEmpty)).filterMap
          (fun i => maxLive (bucketAt t.by_logarithm i))) ∧
    (∀ i ∈ List.range (KADEMLIA_MAX_ID_BITS + 1), ∀ p,
      maxLive (bucketAt t.by_logarithm i) = some p →
      p ∈ bucketAt t.by_logarithm i ∧
        ∀ q ∈ bucketAt t.by_logarithm i, q.liveness ≤ p.liveness) := by
  refine ⟨?_, ?_, ?_⟩
  · intro a ha p hp
    refine List.mem_append.mpr (Or.inl ?_)
    exact List.mem_filterMap.mpr ⟨a, ha, hp⟩
  · unfold proposePermanentConnections
    rw [filterMap_filter_eq _ _ _ ?_]
    intro i _hi hg
    rw [maxLive_eq_none_iff]
    simpa using hg
  · intro i _hi p hp
    exact maxLive_mem _ p hp

/-- C9 witness: the proposal theorem applied to the concrete table `tW9`,
whose desired peer 1 is known as `pW`. -/
theorem propose_contains_desired_and_is_ordered_witness :
    (1 ∈ tW9.desired_peers ∧ lookupA tW9.know_peers 1 = some pW) ∧
    pW ∈ proposePermanentConnections tW9 :=
  ⟨⟨by decide, by decide⟩,
    (propose_contains_desired_and_is_ordered tW9).1 1 (by decide) pW (by decide)⟩

/-- Filtering away one actual member shortens the list. -/
theorem length_filter_lt {α : Type} (l : List α) (p : α → Bool) (x : α)
    (hx : x ∈ l) (hp : p x = false) : (l.filter p).length < l.length := by
  induction l with
  | nil => cases hx
  | cons a t ih =>
    rcases List.mem_cons.mp hx with rfl | hxt
    · simp only [List.filter_cons, hp]
      exact Nat.lt_succ_of_le (List.length_filter_le p t)
    · by_cases hpa : p a = true
      · simp only [List.filter_cons, hpa, List.length_cons]
        exact Nat.succ_lt_succ (ih hxt)
      · simp only [List.filter_cons, Bool.not_eq_true] at hpa ⊢
        rw [hpa]
        exact Nat.lt_trans (ih hxt) (Nat.lt_succ_self _)

/-- The last element of a list is a member. -/
theorem mem_of_getLast? {α : Type} {l : List α} {a : α}
    (h : l.getLast? = some a) : a ∈ l := by
  have hmem : a ∈ l.getLast? := Option.mem_def.mpr h
  rcases List.mem_getLast?_eq_getLast hmem with ⟨hne, ha⟩
  rw [ha]
  exact List.getLast_mem hne

/-- A bucket read out of the array is one of its lists or empty. -/
theorem bucketAt_mem_or_nil (L : List (List PeerInfo)) (i : Nat) :
    bucketAt L i ∈ L ∨ bucketAt L i = [] := by
  unfold bucketAt
  rw [List.getD_eq_getElem?_getD]
  cases hx : L[i]? with
  | none => exact Or.inr rfl
  | some b =>
    rcases List.getElem?_eq_some_iff.mp hx with ⟨hlt, hEq⟩
    exact Or.inl (by simpa [hEq] using List.getElem_mem hlt)

/-- Reading a bucket commutes with filtering every bucket of the array. -/
theorem bucketAt_map_filter (L : List (List PeerInfo)) (g : PeerInfo → Bool)
    (i : Nat) :
    bucketAt (L.map (fun b => b.filter g)) i = (bucketAt L i).filter g := by
  simp only [bucketAt, List.getD_eq_getElem?_getD, List.getElem?_map]
  cases L[i]? <;> rfl

/-- The logarithmic bucket of a removal is the filtered original bucket. -/
theorem removePeer_log_bucket (t : TableState) (a : Nat) (i : Nat) :
    bucketAt (removePeer t a).by_logarithm i =
      (bucketAt t.by_logarithm i).filter (fun p => p.address != a) :=
  bucketAt_map_filter _ _ _

/-- The Hamming bucket of a removal is the filtered original bucket. -/
theorem removePeer_ham_bucket (t : TableState) (a : Nat) (i : Nat) :
    bucketAt (removePeer t a).by_hamming i =
      (bucketAt t.by_hamming i).filter (fun p => p.address != a) :=
  bucketAt_map_filter _ _ _

/-- Removal keeps every bucket within the capacity bound. -/
theorem bounds_removePeer (t : TableState) (a : Nat)
    (h : bucketsBounded t) : bucketsBounded (removePeer t a) := by
  obtain ⟨hK, hL, hH⟩ := h
  refine ⟨hK, ?_, ?_⟩ <;> simp only [removePeer]
  · intro b hb
    rcases List.mem_map.mp hb with ⟨b0, hb0, rfl⟩
    exact Nat.le_trans (List.length_filter_le _ _) (hL b0 hb0)
  · intro b hb
    rcases List.mem_map.mp hb with ⟨b0, hb0, rfl⟩
    exact Nat.le_trans (List.length_filter_le _ _) (hH b0 hb0)

/-- A shared-peer update keeps every bucket within the capacity bound. -/
theorem bounds_updatePeer (t : TableState) (a : Nat) (f : PeerInfo → PeerInfo)
    (h : bucketsBounded t) : bucketsBounded (updatePeer t a f) := by
  obtain ⟨hK, hL, hH⟩ := h
  refine ⟨hK, ?_, ?_⟩ <;> simp only [updatePeer]
  · intro b hb
    rcases List.mem_map.mp hb with ⟨b0, hb0, rfl⟩
    rw [List.length_map]
    exact hL b0 hb0
  · intro b hb
    rcases List.mem_map.mp hb with ⟨b0, hb0, rfl⟩
    rw [List.length_map]
    exact hH b0 hb0

/-- Eviction keeps every bucket within the capacity bound. -/
theorem bounds_evictFor (t : TableState) (b : List PeerInfo)
    (h : bucketsBounded t) : bucketsBounded (evictFor t b) := by
  unfold evictFor
  split
  · exact h
  · split
    · exact bounds_removePeer _ _ h
    · exact h

/-- Eviction driven by a table's own logarithmic bucket leaves that bucket
strictly below the capacity. -/
theorem evictLog_small (t : TableState) (i : Nat) (h : bucketsBounded t) :
    (bucketAt (evictFor t (bucketAt t.by_logarithm i)).by_logarithm i).length
      < 20 := by
  unfold evictFor
  rw [h.1]
  by_cases hlen : (bucketAt t.by_logarithm i).length < 20
  · rw [if_pos hlen]
    exact hlen
  · rw [if_neg hlen]
    have hb20 : (bucketAt t.by_logarithm i).length = 20 := by
      rcases bucketAt_mem_or_nil t.by_logarithm i with hm | hm
      · exact Nat.le_antisymm (h.2.1 _ hm) (Nat.le_of_not_lt hlen)
      · rw [hm] at hlen
        exact absurd (by decide : ([] : List PeerInfo).length < 20) hlen
    obtain ⟨tl, htl⟩ : ∃ tl, (bucketAt t.by_logarithm i).getLast? = some tl := by
      cases hx : (bucketAt t.by_logarithm i).getLast? with
      | none =>
        rw [List.getLast?_eq_none_iff] at hx
        rw [hx] at hb20
        cases hb20
      | some tl => exact ⟨tl, rfl⟩
    rw [htl]
    show (bucketAt (removePeer t tl.address).by_logarithm i).length < 20
    rw [removePeer_log_bucket, ← hb20]
    exact length_filter_lt _ _ tl (mem_of_getLast? htl) (by simp)

/-- Eviction driven by a table's own Hamming bucket leaves that bucket
strictly below the capacity. -/
theorem evictHam_small (t : TableState) (i : Nat) (h : bucketsBounded t) :
    (bucketAt (evictFor t (bucketAt t.by_hamming i)).by_hamming i).length
      < 20 := by
  unfold evictFor
  rw [h.1]
  by_cases hlen : (bucketAt t.by_hamming i).length < 20
  · rw [if_pos hlen]
    exact hlen
  · rw [if_neg hlen]
    have hb20 : (bucketAt t.by_hamming i).length = 20 := by
      rcases bucketAt_mem_or_nil t.by_hamming i with hm | hm
      · exact Nat.le_antisymm (h.2.2 _ hm) (Nat.le_of_not_lt hlen)
      · rw [hm] at hlen
        exact absurd (by decide : ([] : List PeerInfo).length < 20) hlen
    obtain ⟨tl, htl⟩ : ∃ tl, (bucketAt t.by_hamming i).getLast? = some tl := by
      cases hx : (bucketAt t.by_hamming i).getLast? with
      | none =>
        rw [List.getLast?_eq_none_iff] at hx
        rw [hx] at hb20
        cases hb20
      | some tl => exact ⟨tl, rfl⟩
    rw [htl]
    show (bucketAt (removePeer t tl.address).by_hamming i).length < 20
    rw [removePeer_ham_bucket, ← hb20]
    exact length_filter_lt _ _ tl (mem_of_getLast? htl) (by simp)

/-- Any eviction can only shrink a given logarithmic bucket. -/
theorem evict_keeps_log_small (t : TableState) (b : List PeerInfo) (i : Nat)
    (h : (bucketAt t.by_logarithm i).length < 20) :
    (bucketAt (evictFor t b).by_logarithm i).length < 20 := by
  unfold evictFor
  split
  · exact h
  · split
    · rw [removePeer_log_bucket]
      exact Nat.lt_of_le_of_lt (List.length_filter_le _ _) h
    · exact h

/-- Registration keeps every bucket within the capacity when both target
buckets are strictly below it. -/
theorem bounds_registerNew (t2 : TableState) (info : PeerInfo)
    (r li hi : Nat) (h : bucketsBounded t2)
    (hli : (bucketAt t2.by_logarithm li).length < 20)
    (hhi : (bucketAt t2.by_hamming hi).length < 20) :
    bucketsBounded (registerNew t2 info r li hi) := by
  refine ⟨h.1, ?_, ?_⟩
  · intro b hb
    rcases List.mem_or_eq_of_mem_set hb with hb | hbq
    · exact h.2.1 b hb
    · rw [hbq, List.length_cons]
      omega
  · intro b hb
    rcases List.mem_or_eq_of_mem_set hb with hb | hbq
    · exact h.2.2 b hb
    · rw [hbq, List.length_cons]
      omega

/-- ReportExistence keeps every bucket within the capacity bound. -/
theorem bounds_reportExistence (t : TableState) (info : PeerInfo) (r : Nat)
    (h : bucketsBounded t) : bucketsBounded (reportExistence t info r) := by
  unfold reportExistence
  split
  · exact h
  · split
    · exact bounds_updatePeer _ _ _ h
    · split
      · show bucketsBounded (insertNew t info r)
        have h1 := bounds_evictFor t
          (bucketAt t.by_logarithm (logId t.own_kad_address info.kademlia_address)) h
        have h2 := bounds_evictFor _
          (bucketAt (evictFor t (bucketAt t.by_logarithm
              (logId t.own_kad_address info.kademlia_address))).by_hamming
            (hammingId t.own_kad_address info.kademlia_address)) h1
        have hA := evictLog_small t
          (logId t.own_kad_address info.kademlia_address) h
        have hB1 := evictHam_small
          (evictFor t (bucketAt t.by_logarithm
            (logId t.own_kad_address info.kademlia_address)))
          (hammingId t.own_kad_address info.kademlia_address) h1
        have hB2 := evict_keeps_log_small
          (evictFor t (bucketAt t.by_logarithm
            (logId t.own_kad_address info.kademlia_address)))
          (bucketAt (evictFor t (bucketAt t.by_logarithm
              (logId t.own_kad_address info.kademlia_address))).by_hamming
            (hammingId t.own_kad_address info.kademlia_address))
          (logId t.own_kad_address info.kademlia_address) hA
        exact bounds_registerNew _ info r _ _ h2 hB2 hB1
      · exact h

/-- Moving a peer to the front of its bucket keeps bucket lengths bounded. -/
theorem bounds_moveFront (a : Nat) (f : PeerInfo → PeerInfo)
    (L : List (List PeerInfo)) (hL : ∀ b ∈ L, b.length ≤ 20) :
    ∀ b ∈ moveFront a f L, b.length ≤ 20 := by
  intro b hb
  rcases List.mem_map.mp hb with ⟨b0, hb0, rfl⟩
  cases hf : b0.find? (fun p => p.address == a) with
  | none =>
    simp only [hf]
    exact hL b0 hb0
  | some p =>
    simp only [hf, List.length_cons]
    have hpmem : p ∈ b0 := List.mem_of_find?_eq_some hf
    have hppred : (p.address == a) = true :=
      List.find?_some (p := fun q : PeerInfo => q.address == a) hf
    have haddr : p.address = a := by simpa using hppred
    have hlt : (b0.filter (fun q => q.address != a)).length < b0.length :=
      length_filter_lt _ _ p hpmem (by simp [haddr])
    exact Nat.le_trans (Nat.succ_le_of_lt hlt) (hL b0 hb0)

/-- The liveness bump keeps every bucket within the capacity bound. -/
theorem bounds_bumpState (lmax now : Nat) (t : TableState) (a : Nat)
    (h : bucketsBounded t) : bucketsBounded (bumpState lmax now t a) := by
  unfold bumpState
  split
  · exact ⟨h.1, bounds_moveFront _ _ _ h.2.1, bounds_moveFront _ _ _ h.2.2⟩
  · exact h

/-- Every public operation keeps every bucket within the capacity bound. -/
theorem bounds_applyOp (lmax : Nat) (t : TableState) (op : TableOp)
    (h : bucketsBounded t) : bucketsBounded (applyOp lmax t op) := by
  cases op with
  | opExistence info r => exact bounds_reportExistence t info r h
  | opLiveliness now a r minfo =>
    show bucketsBounded (reportLiveliness lmax now t a r minfo)
    unfold reportLiveliness
    split
    · exact bounds_bumpState _ _ _ _ h
    · split
      · exact bounds_bumpState _ _ _ _ (bounds_reportExistence _ _ _ h)
      · exact h
  | opFailure a r =>
    show bucketsBounded (reportFailure t a r)
    unfold reportFailure
    split
    · exact h
    · split
      · exact bounds_removePeer _ _ h
      · exact bounds_updatePeer _ _ _ h
  | opPing a =>
    show bucketsBounded (ping t a)
    unfold ping
    split
    · exact bounds_updatePeer _ _ _ h
    · exact h
  | opAddDesired a e => exact h
  | opAddDesiredUri u e => exact h
  | opRemoveDesired a => exact h
  | opClearDesired => exact h
  | opTrimDesired now => exact h
  | opConvertDesiredUris => exact h

/-- C6: along every sequence of public operations started from a freshly
constructed table, no bucket of either bucket array ever holds more than
K = kademlia_max_peers_per_bucket_ = 20 peers. -/
theorem buckets_never_exceed_capacity (lmax own ownKad : Nat)
    (ops : List TableOp) :
    bucketsBounded (runOps lmax (freshTable own ownKad) ops) := by
  have hfresh : bucketsBounded (freshTable own ownKad) := by
    refine ⟨rfl, ?_, ?_⟩ <;> intro b hb <;> rw [List.eq_of_mem_replicate hb] <;>
      exact Nat.le_of_lt (by decide)
  have hrun : ∀ (l : List TableOp) (s : TableState), bucketsBounded s →
      bucketsBounded (runOps lmax s l) := by
    intro l
    induction l with
    | nil => exact fun s hs => hs
    | cons op rest ih => exact fun s hs => ih _ (bounds_applyOp lmax s op hs)
  exact hrun ops _ hfresh

/-- C6 witness: the invariant theorem applied to a one-operation run that
inserts the peer `pW` into the fresh table, instantiated at the bucket that
received it. -/
theorem buckets_never_exceed_capacity_witness :
    [pW] ∈ (runOps 5 (freshTable 5 9) [TableOp.opExistence pW 0]).by_logarithm ∧
    ([pW] : List PeerInfo).length ≤ 20 :=
  ⟨by decide,
    (buckets_never_exceed_capacity 5 5 9 [TableOp.opExistence pW 0]).2.1
      [pW] (by decide)⟩

/-- C10: a freshly constructed table reports
`first_non_empty_bucket() = KADEMLIA_MAX_ID_BITS` (160 for SHA-1, the
self-bucket index), not 0, even though every logarithmic bucket is empty. -/
theorem fresh_first_non_empty_bucket_is_id_bits (own ownKad : Nat) :
    (freshTable own ownKad).first_non_empty_bucket = KADEMLIA_MAX_ID_BITS ∧
    KADEMLIA_MAX_ID_BITS = 160 ∧
    (freshTable own ownKad).first_non_empty_bucket ≠ 0 ∧
    ∀ b ∈ (freshTable own ownKad).by_logarithm, b = [] := by
  refine ⟨rfl, rfl, ?_, fun _b hb => List.eq_of_mem_replicate hb⟩
  show (160 : Nat) ≠ 0
  decide

/-- C10 witness: the fresh-table theorem applied at own address 3 and own
Kademlia address 7, instantiating the bucket quantifier at a member bucket. -/
theorem fresh_first_non_empty_bucket_is_id_bits_witness :
    ([] : List PeerInfo) ∈ (freshTable 3 7).by_logarithm ∧
    ([] : List PeerInfo) = [] :=
  ⟨by decide,
    (fresh_first_non_empty_bucket_is_id_bits 3 7).2.2.2 [] (by decide)⟩

end Muddle




